import Mathlib

/-!
Verification of the string-literal extraction/substitution engine of
`pyTranslateSwf.parsers` (class `JPEXSActionScriptParser`).

Source texts are modelled as `List Char`.  The Python regular expressions of
the source are embedded as executable scanning functions:

* `STRING_LITERAL_PATTERN = "([^"]*)"` — `finditer`/`sub` over this pattern
  decompose a source text into an alternation of raw text and quoted literal
  contents; this is `scanLiterals` (via `splitQuotes`/`chunksOfParts`).
* `HTML_MARKUP_PATTERN = \s*</?[^>]*>\s*|\s*&[a-zA-Z0-9#]+;\s*` — leftmost,
  non-overlapping matching of this pattern is `matchMarkupAt`/`markupScan`;
  `(markupScan s).1` is `re.split` (the plain segments) and `(markupScan s).2`
  is `re.findall` (the markup runs).  `markupScan` is written with a fuel
  argument equal to the length of the input; every scanning step consumes at
  least one character, so the fuel never runs out (`markupScanF_fuel_irrel`).
* `HTML_TAGS_PATTERN = <html>.*</html>` with `fullmatch` is
  `htmlTagsFullmatch` (note `.` does not match a newline in Python).
* `SENTENCE_PUNCTUATION_PATTERN = [「」、。？…]` with `search` is
  `hasSentencePunct`.
* the heuristic `regex.fullmatch(r"\p{General_Category=Other_Letter}{6,}", s)`
  is `otherLetterRun lo s` where `lo : Char → Bool` stands for the Unicode
  Other_Letter category table (third-party data, not part of the repository);
  all structural theorems are stated for an arbitrary `lo` and therefore hold
  for the real table.  `isKanaKanji` is a concrete instance: the restriction
  of the category to the Hiragana, Katakana and CJK Unified Ideographs blocks
  (every character of those blocks has General_Category=Lo), used to run the
  concrete scenarios.

`extractStrings` embeds `JPEXSActionScriptParser._extract_strings`,
`ignoreString` embeds `_ignore_string`, `escapeReplacement` embeds the
escaping line of `replace_strings`, `substituteChunks`/`substitute`/
`ParserState.replaceStringsRun` embed `replace_strings` (including the
`ValueError` on a count mismatch and the `IndexError` that an out-of-range
`strings[i]` would raise), and `mkParserState` embeds `__init__` (the mode
check happens before the input is read, hence the `Unit → List Char` input
thunk).
-/

set_option maxRecDepth 4000

namespace Swf

/-- The double-quote character U+0022 (written via its code point). -/
def quoteChar : Char := Char.ofNat 34

/-- The single-quote character U+0027. -/
def aposChar : Char := Char.ofNat 39

/-- Python's `\s` character class under `str` (Unicode) semantics: exactly the
characters for which CPython's `re` module makes `\s` match (the ASCII
whitespace and the Unicode whitespace code points). -/
def isPySpace (c : Char) : Bool :=
  (9 ≤ c.toNat && c.toNat ≤ 13) || (28 ≤ c.toNat && c.toNat ≤ 31) ||
  c.toNat == 32 || c.toNat == 133 || c.toNat == 160 || c.toNat == 5760 ||
  (8192 ≤ c.toNat && c.toNat ≤ 8202) || c.toNat == 8232 || c.toNat == 8233 ||
  c.toNat == 8239 || c.toNat == 8287 || c.toNat == 12288

/-- The character class `[a-zA-Z0-9#]` of the character-reference alternative
of `HTML_MARKUP_PATTERN` (`Char.isAlpha`/`Char.isDigit` are the ASCII tests,
matching the ASCII-only semantics of the explicit ranges). -/
def isRefChar (c : Char) : Bool := c.isAlpha || c.isDigit || c == '#'

/-- The two parser modes of `JPEXSActionScriptParser.MODES`
(`MODE_HTML = "html"`, `MODE_HEURISTIC = "heuristic"`; the spec calls the
first one `strict`). -/
inductive Mode
  | html
  | heuristic

/-- One piece of the decomposition of a source text along
`STRING_LITERAL_PATTERN`: either raw text outside any matched literal, or the
content (without the surrounding quotes, regex group 1) of a matched
literal. -/
inductive Chunk
  | text (s : List Char)
  | lit (content : List Char)

/-- Split a character list at the first occurrence of `q`: returns the part
before and the part after, or `none` when `q` does not occur.  This is the
backtracking-free meaning of a greedy `[^q]*` bounded by a literal `q`. -/
def breakOnChar (q : Char) : List Char → Option (List Char × List Char)
  | [] => none
  | c :: cs =>
    if c = q then some ([], cs)
    else
      match breakOnChar q cs with
      | none => none
      | some (pre, post) => some (c :: pre, post)

/-- Try to match `HTML_MARKUP_PATTERN`
(`\s*</?[^>]*>\s*|\s*&[a-zA-Z0-9#]+;\s*`) at the start of `s`.  On success
returns the matched text and the remainder.  The greedy `\s*` is a maximal
whitespace run; `</?[^>]*>` succeeds exactly when a `>` follows the `<`
(the optional `/` is subsumed by `[^>]*`); `&[a-zA-Z0-9#]+;` needs a
non-empty class run followed by `;`. -/
def matchMarkupAt (s : List Char) : Option (List Char × List Char) :=
  match s.dropWhile isPySpace with
  | '<' :: r1 =>
    match breakOnChar '>' r1 with
    | none => none
    | some (inner, r2) =>
      some (s.takeWhile isPySpace ++ '<' :: (inner ++ '>' :: r2.takeWhile isPySpace),
            r2.dropWhile isPySpace)
  | '&' :: r1 =>
    match r1.dropWhile isRefChar with
    | ';' :: r3 =>
      if r1.takeWhile isRefChar = [] then none
      else
        some (s.takeWhile isPySpace ++
                '&' :: (r1.takeWhile isRefChar ++ ';' :: r3.takeWhile isPySpace),
              r3.dropWhile isPySpace)
    | _ => none
  | _ => none

/-- Fueled scan of a string for the leftmost, non-overlapping matches of
`HTML_MARKUP_PATTERN`.  Returns (`re.split` result, `re.findall` result):
the plain segments between the matches (including before the first and after
the last) and the matched markup runs.  Each step consumes at least one
character, so fuel equal to the length of the input never runs out
(`markupScanF_fuel_irrel`). -/
def markupScanF : Nat → List Char → List (List Char) × List (List Char)
  | _, [] => ([[]], [])
  | 0, c :: cs => ([c :: cs], [])
  | fuel + 1, c :: cs =>
    match matchMarkupAt (c :: cs) with
    | some (m, rest) =>
      ([] :: (markupScanF fuel rest).1, m :: (markupScanF fuel rest).2)
    | none =>
      ((c :: (markupScanF fuel cs).1.headD []) :: (markupScanF fuel cs).1.tail,
       (markupScanF fuel cs).2)

/-- `markupScan s = (HTML_MARKUP_PATTERN.split s, HTML_MARKUP_PATTERN.findall s)`. -/
def markupScan (s : List Char) : List (List Char) × List (List Char) :=
  markupScanF s.length s

/-- Prepend a character to the first part of a part list. -/
def consHead (c : Char) : List (List Char) → List (List Char)
  | [] => [[c]]
  | p :: ps => (c :: p) :: ps

/-- Split a source text on every double quote (the part list is always
non-empty; `n` quotes give `n + 1` parts). -/
def splitQuotes : List Char → List (List Char)
  | [] => [[]]
  | c :: cs =>
    if c = quoteChar then [] :: splitQuotes cs else consHead c (splitQuotes cs)

/-- Pair up the quote-split parts the way `finditer` over
`STRING_LITERAL_PATTERN` consumes quotes: text, literal, text, literal, …;
a final unmatched opening quote is raw text (the pattern needs a closing
quote). -/
def chunksOfParts : List (List Char) → List Chunk
  | [] => []
  | [t] => [Chunk.text t]
  | [t, u] => [Chunk.text (t ++ quoteChar :: u)]
  | t :: c :: u :: rest => Chunk.text t :: Chunk.lit c :: chunksOfParts (u :: rest)

/-- Decompose a source text into the alternation of raw text and literal
contents produced by scanning with `STRING_LITERAL_PATTERN`. -/
def scanLiterals (s : List Char) : List Chunk := chunksOfParts (splitQuotes s)

/-- Rejoin quote-split parts (inverse of `splitQuotes`). -/
def joinParts : List (List Char) → List Char
  | [] => []
  | [p] => p
  | p :: q :: rest => p ++ quoteChar :: joinParts (q :: rest)

/-- Render a chunk list back to source text: raw text verbatim, literal
contents re-wrapped in double quotes. -/
def joinChunks : List Chunk → List Char
  | [] => []
  | Chunk.text t :: cs => t ++ joinChunks cs
  | Chunk.lit c :: cs => quoteChar :: (c ++ quoteChar :: joinChunks cs)

/-- The opening marker of `HTML_TAGS_PATTERN`. -/
def openHtml : List Char := "<html>".toList

/-- The closing marker of `HTML_TAGS_PATTERN`. -/
def closeHtml : List Char := "</html>".toList

/-- `HTML_TAGS_PATTERN.fullmatch`: the whole string is `<html>`, then
arbitrary characters other than newline (`.` does not match `\n` without
`re.DOTALL`), then `</html>`. -/
def htmlTagsFullmatch (s : List Char) : Bool :=
  decide (13 ≤ s.length) && decide (s.take 6 = openHtml) &&
  decide (s.drop (s.length - 7) = closeHtml) &&
  ((s.drop 6).take (s.length - 13)).all (fun c => decide (c ≠ '\n'))

/-- The fixed punctuation set of `SENTENCE_PUNCTUATION_PATTERN`. -/
def sentencePunct : List Char := "「」、。？…".toList

/-- `SENTENCE_PUNCTUATION_PATTERN.search`: some character of the fixed
punctuation set occurs in the string. -/
def hasSentencePunct (s : List Char) : Bool :=
  s.any (fun c => sentencePunct.contains c)

/-- `regex.fullmatch(r"\p{General_Category=Other_Letter}{6,}", s)`: the whole
string is 6 or more characters of the Other_Letter category, the category
being passed in as the predicate `lo`. -/
def otherLetterRun (lo : Char → Bool) (s : List Char) : Bool :=
  decide (6 ≤ s.length) && s.all lo

/-- Concrete instance of the Other_Letter category predicate: its restriction
to the Hiragana (U+3041–U+3096), Katakana (U+30A1–U+30FA) and CJK Unified
Ideographs (U+4E00–U+9FFF) blocks, all of whose characters have
General_Category=Lo.  Used to run the concrete Japanese-text scenarios. -/
def isKanaKanji (c : Char) : Bool :=
  (0x3041 ≤ c.toNat && c.toNat ≤ 0x3096) ||
  (0x30A1 ≤ c.toNat && c.toNat ≤ 0x30FA) ||
  (0x4E00 ≤ c.toNat && c.toNat ≤ 0x9FFF)

/-- `JPEXSActionScriptParser._ignore_string` (with the `regex` module
installed, as the repository's heuristics expect): in `html` mode only a
full `<html>…</html>` match is kept; in `heuristic` mode additionally a
string containing sentence punctuation or consisting of a run of 6+
Other_Letter characters is kept. -/
def ignoreString (lo : Char → Bool) (mode : Mode) (s : List Char) : Bool :=
  match mode with
  | Mode.html => if htmlTagsFullmatch s then false else true
  | Mode.heuristic =>
    if htmlTagsFullmatch s then false
    else if hasSentencePunct s then false
    else if otherLetterRun lo s then false
    else true

/-- The spec's `should_include`: the negation of `_ignore_string`. -/
def shouldInclude (lo : Char → Bool) (mode : Mode) (s : List Char) : Bool :=
  !(ignoreString lo mode s)

/-- The extraction pass over the chunk decomposition
(`_extract_strings`): every included literal contributes its plain
segments, in order; raw text and ignored literals contribute nothing. -/
def extractChunks (lo : Char → Bool) (mode : Mode) : List Chunk → List (List Char)
  | [] => []
  | Chunk.text _ :: cs => extractChunks lo mode cs
  | Chunk.lit c :: cs =>
    if ignoreString lo mode c then extractChunks lo mode cs
    else (markupScan c).1 ++ extractChunks lo mode cs

/-- `JPEXSActionScriptParser._extract_strings` on a whole source text. -/
def extractStrings (lo : Char → Bool) (mode : Mode) (data : List Char) :
    List (List Char) :=
  extractChunks lo mode (scanLiterals data)

/-- The escaping transform of `replace_strings`:
`re.sub(r"[<\n&]", "", new_string_chunk.replace('"', "'"))` — every double
quote becomes a single quote, then every `<`, newline and `&` is removed. -/
def escapeReplacement (s : List Char) : List Char :=
  (s.map (fun c => if c = quoteChar then aposChar else c)).filter
    (fun c => !(decide (c = '<') || decide (c = '\n') || decide (c = '&')))

/-- The replacement-consuming loop of `replace_strings`
(`for _ in string_chunks: new_string_chunk = strings[i]; … ; i += 1`):
one replacement entry is read and escaped per plain segment, the index
increasing by one each time; an out-of-range index is Python's `IndexError`,
modelled as `none`. -/
def consumeChunks (repl : List (List Char)) (i : Nat) :
    List (List Char) → Option (List (List Char) × Nat)
  | [] => some ([], i)
  | _ :: ps =>
    match repl[i]? with
    | none => none
    | some r =>
      match consumeChunks repl (i + 1) ps with
      | none => none
      | some (rs, j) => some (escapeReplacement r :: rs, j)

/-- `"".join("".join(tmp) for tmp in itertools.chain(itertools.zip_longest(ps, ms, fillvalue="")))`:
interleave two lists of strings starting with the first, padding the shorter
one with empty strings. -/
def interleave : List (List Char) → List (List Char) → List Char
  | [], ms => ms.flatten
  | p :: ps, [] => p ++ interleave ps []
  | p :: ps, m :: ms => p ++ (m ++ interleave ps ms)

/-- The substitution pass of `replace_strings` over the chunk decomposition:
raw text and ignored literals pass through verbatim (`m.group(0)`); an
included literal is rebuilt by interleaving the escaped replacement entries
with its original markup runs and re-wrapping in quotes.  Returns the new
text and the final replacement index, or `none` on an `IndexError`. -/
def substituteChunks (lo : Char → Bool) (mode : Mode) (repl : List (List Char)) :
    List Chunk → Nat → Option (List Char × Nat)
  | [], i => some ([], i)
  | Chunk.text t :: cs, i =>
    match substituteChunks lo mode repl cs i with
    | none => none
    | some (out, j) => some (t ++ out, j)
  | Chunk.lit c :: cs, i =>
    if ignoreString lo mode c then
      match substituteChunks lo mode repl cs i with
      | none => none
      | some (out, j) => some (quoteChar :: (c ++ quoteChar :: out), j)
    else
      match consumeChunks repl i (markupScan c).1 with
      | none => none
      | some (newPs, j) =>
        match substituteChunks lo mode repl cs j with
        | none => none
        | some (out, k) =>
          some (quoteChar :: (interleave newPs (markupScan c).2 ++ quoteChar :: out), k)

/-- The failures `replace_strings` can raise: the `ValueError("String count
mismatch")` on a length mismatch, and the `IndexError` an out-of-range
`strings[i]` would raise. -/
inductive SubstError
  | countMismatch
  | indexError

/-- `replace_strings` as a pure function of (source text, mode, replacement
sequence), for a parser whose stored extraction is the extraction of its
stored text (as after construction). -/
def substitute (lo : Char → Bool) (mode : Mode) (data : List Char)
    (repl : List (List Char)) : Except SubstError (List Char) :=
  if repl.length ≠ (extractStrings lo mode data).length then
    Except.error SubstError.countMismatch
  else
    match substituteChunks lo mode repl (scanLiterals data) 0 with
    | none => Except.error SubstError.indexError
    | some (out, _) => Except.ok out

/-- The mutable state of a `JPEXSActionScriptParser`: its mode, its source
text `self.data`, and the extraction `self.strings` stored at construction. -/
structure ParserState where
  mode : Mode
  data : List Char
  strings : List (List Char)

/-- `get_extracted_strings`. -/
def ParserState.getExtractedStrings (p : ParserState) : List (List Char) :=
  p.strings

/-- `replace_strings` as a state transformer: the error raised (if any)
together with the parser state after the call.  `self.data` is assigned only
after the whole `re.sub` completes, so on either error the state is
untouched; `self.strings` is never reassigned. -/
def ParserState.replaceStringsRun (lo : Char → Bool) (p : ParserState)
    (repl : List (List Char)) : Option SubstError × ParserState :=
  if repl.length ≠ p.strings.length then (some SubstError.countMismatch, p)
  else
    match substituteChunks lo p.mode repl (scanLiterals p.data) 0 with
    | none => (some SubstError.indexError, p)
    | some (out, _) => (none, { p with data := out })

/-- The failure `JPEXSActionScriptParser.__init__` raises on an unsupported
mode string (`ValueError`). -/
inductive InitError
  | unsupportedMode

/-- Map a mode string onto a member of `MODES`. -/
def parseMode (s : List Char) : Option Mode :=
  if s = "html".toList then some Mode.html
  else if s = "heuristic".toList then some Mode.heuristic
  else none

/-- `JPEXSActionScriptParser.__init__`: the mode is validated first (before
the input is read — hence the input is a thunk, applied only on the success
path); then the base constructor reads the text and immediately stores
`self.strings = self._extract_strings()`. -/
def mkParserState (lo : Char → Bool) (modeStr : List Char)
    (readData : Unit → List Char) : Except InitError ParserState :=
  match parseMode modeStr with
  | none => Except.error InitError.unsupportedMode
  | some m =>
    let d := readData ()
    Except.ok { mode := m, data := d, strings := extractStrings lo m d }

/-- Merge a string onto the head of a frame list (used to glue the frame
pieces of consecutive chunks). -/
def mergeHead (t : List Char) : List (List Char) → List (List Char)
  | [] => [t]
  | f :: fs => (t ++ f) :: fs

/-- The frame of a chunk list: the pieces of source text around the plain
segments of the included literals, in order — raw text, ignored literals
(with their quotes), the quotes and markup runs of included literals.
Interleaving the frame with the extracted segments reproduces the source
text, and interleaving it with the escaped replacements is exactly the
substitution output. -/
def framesOf (lo : Char → Bool) (mode : Mode) : List Chunk → List (List Char)
  | [] => [[]]
  | Chunk.text t :: cs => mergeHead t (framesOf lo mode cs)
  | Chunk.lit c :: cs =>
    if ignoreString lo mode c then
      mergeHead (quoteChar :: (c ++ [quoteChar])) (framesOf lo mode cs)
    else
      [quoteChar] :: ((markupScan c).2 ++ mergeHead [quoteChar] (framesOf lo mode cs))

/-- The literal contents of a chunk list, in scan order. -/
def literalContents : List Chunk → List (List Char)
  | [] => []
  | Chunk.text _ :: cs => literalContents cs
  | Chunk.lit c :: cs => c :: literalContents cs

/-- The strict-mode inclusion condition as the claim words it: the entire
content is an opening `<html>` marker, then arbitrary content, then the
matching `</html>` closing marker (no restriction on the middle). -/
def htmlWrappedClaim (s : List Char) : Bool :=
  decide (13 ≤ s.length) && decide (s.take 6 = openHtml) &&
  decide (s.drop (s.length - 7) = closeHtml)

/-- The strict-mode scenario input of the spec. -/
def exampleSource : List Char := "this.t = \"<html>hi</html>\";".toList

/-! ### Basic facts about the scanning functions -/

theorem breakOnChar_eq {q : Char} :
    ∀ {s pre post : List Char}, breakOnChar q s = some (pre, post) →
      s = pre ++ q :: post := by
  intro s
  induction s with
  | nil => intro pre post h; simp [breakOnChar] at h
  | cons c cs ih =>
    intro pre post h
    rw [breakOnChar] at h
    split at h
    · rename_i hc
      simp only [Option.some.injEq, Prod.mk.injEq] at h
      obtain ⟨h1, h2⟩ := h
      subst h1; subst h2; subst hc
      simp
    · rename_i hc
      cases hbc : breakOnChar q cs with
      | none => rw [hbc] at h; simp at h
      | some pp =>
        obtain ⟨pre', post'⟩ := pp
        rw [hbc] at h
        simp only [Option.some.injEq, Prod.mk.injEq] at h
        obtain ⟨h1, h2⟩ := h
        subst h1; subst h2
        simp [ih hbc]

theorem matchMarkupAt_eq {s m rest : List Char}
    (h : matchMarkupAt s = some (m, rest)) : s = m ++ rest ∧ m ≠ [] := by
  unfold matchMarkupAt at h
  split at h
  · rename_i r1 hdw
    split at h
    · simp at h
    · rename_i inner r2 hbc
      simp only [Option.some.injEq, Prod.mk.injEq] at h
      obtain ⟨hm, hr⟩ := h
      subst hm; subst hr
      refine ⟨?_, by simp⟩
      conv_lhs => rw [← List.takeWhile_append_dropWhile (p := isPySpace) (l := s)]
      rw [hdw, breakOnChar_eq hbc]
      conv_lhs => rw [← List.takeWhile_append_dropWhile (p := isPySpace) (l := r2)]
      simp [List.append_assoc]
  · rename_i r1 hdw
    split at h
    · rename_i r3 hdr
      split at h
      · simp at h
      · simp only [Option.some.injEq, Prod.mk.injEq] at h
        obtain ⟨hm, hr⟩ := h
        subst hm; subst hr
        refine ⟨?_, by simp⟩
        conv_lhs => rw [← List.takeWhile_append_dropWhile (p := isPySpace) (l := s)]
        rw [hdw]
        conv_lhs => rw [← List.takeWhile_append_dropWhile (p := isRefChar) (l := r1)]
        rw [hdr]
        conv_lhs => rw [← List.takeWhile_append_dropWhile (p := isPySpace) (l := r3)]
        simp [List.append_assoc]
    · simp at h
  · simp at h

theorem matchMarkupAt_length {s m rest : List Char}
    (h : matchMarkupAt s = some (m, rest)) : rest.length < s.length := by
  obtain ⟨heq, hne⟩ := matchMarkupAt_eq h
  have h1 : s.length = m.length + rest.length := by rw [heq]; simp
  have h2 : 1 ≤ m.length := by
    cases m with
    | nil => exact absurd rfl hne
    | cons _ _ => simp
  omega

theorem markupScanF_nil (fuel : Nat) : markupScanF fuel [] = ([[]], []) := by
  cases fuel <;> rfl

theorem markupScanF_zero_cons (c : Char) (cs : List Char) :
    markupScanF 0 (c :: cs) = ([c :: cs], []) := rfl

theorem markupScanF_succ_cons (n : Nat) (c : Char) (cs : List Char) :
    markupScanF (n + 1) (c :: cs) =
      (match matchMarkupAt (c :: cs) with
       | some (m, rest) =>
         ([] :: (markupScanF n rest).1, m :: (markupScanF n rest).2)
       | none =>
         ((c :: (markupScanF n cs).1.headD []) :: (markupScanF n cs).1.tail,
          (markupScanF n cs).2)) := rfl

theorem markupScanF_count :
    ∀ (fuel : Nat) (s : List Char),
      (markupScanF fuel s).1.length = (markupScanF fuel s).2.length + 1 := by
  intro fuel
  induction fuel with
  | zero =>
    intro s
    cases s with
    | nil => simp [markupScanF_nil]
    | cons c cs => simp [markupScanF_zero_cons]
  | succ n ih =>
    intro s
    cases s with
    | nil => simp [markupScanF_nil]
    | cons c cs =>
      rw [markupScanF_succ_cons]
      cases h : matchMarkupAt (c :: cs) with
      | some mr =>
        obtain ⟨m, rest⟩ := mr
        simpa using ih rest
      | none =>
        have hcs := ih cs
        cases h1 : (markupScanF n cs).1 with
        | nil => rw [h1] at hcs; simp at hcs
        | cons p ps =>
          rw [h1] at hcs
          simp only [h1]
          simp at hcs ⊢
          omega

theorem markupScanF_ne_nil (fuel : Nat) (s : List Char) :
    (markupScanF fuel s).1 ≠ [] := by
  intro hnil
  have := markupScanF_count fuel s
  rw [hnil] at this
  simp at this

theorem markupScan_count (s : List Char) :
    (markupScan s).1.length = (markupScan s).2.length + 1 :=
  markupScanF_count s.length s

/-! ### Interleaving -/

theorem interleave_cons_cons (p m : List Char) (ps ms : List (List Char)) :
    interleave (p :: ps) (m :: ms) = p ++ (m ++ interleave ps ms) := rfl

theorem interleave_cons_nil (p : List Char) (ps : List (List Char)) :
    interleave (p :: ps) [] = p ++ interleave ps [] := rfl

theorem interleave_nil_left (b : List (List Char)) : interleave [] b = b.flatten := rfl

theorem interleave_nil_right : ∀ (a : List (List Char)), interleave a [] = a.flatten
  | [] => rfl
  | p :: ps => by
    rw [interleave_cons_nil, interleave_nil_right ps]
    simp

theorem interleave_swap_aux :
    ∀ (n : Nat) (a b : List (List Char)) (x : List Char),
      a.length + b.length ≤ n → interleave (x :: a) b = x ++ interleave b a := by
  intro n
  induction n with
  | zero =>
    intro a b x h
    have ha : a = [] := by cases a <;> simp_all
    have hb : b = [] := by cases b <;> simp_all
    subst ha; subst hb
    simp [interleave]
  | succ n ih =>
    intro a b x h
    cases b with
    | nil => rw [interleave_nil_left, interleave_nil_right]; simp
    | cons s ss =>
      have h1 : ss.length + a.length ≤ n := by simp at h; omega
      have h2 : interleave (s :: ss) a = s ++ interleave a ss := ih ss a s h1
      rw [interleave_cons_cons, h2]

theorem interleave_swap (x : List Char) (a b : List (List Char)) :
    interleave (x :: a) b = x ++ interleave b a :=
  interleave_swap_aux (a.length + b.length) a b x (Nat.le_refl _)

theorem interleave_block :
    ∀ (fs ss g t : List (List Char)), fs.length = ss.length →
      interleave (fs ++ g) (ss ++ t) = interleave fs ss ++ interleave g t := by
  intro fs
  induction fs with
  | nil =>
    intro ss g t h
    have : ss = [] := by cases ss <;> simp_all
    subst this
    simp [interleave]
  | cons f fs ih =>
    intro ss g t h
    cases ss with
    | nil => simp at h
    | cons s ss' =>
      have h' : fs.length = ss'.length := by simpa using h
      simp only [List.cons_append, interleave_cons_cons]
      rw [ih ss' g t h']
      simp [List.append_assoc]

theorem mergeHead_interleave (t : List Char) (F S : List (List Char)) :
    interleave (mergeHead t F) S = t ++ interleave F S := by
  cases F <;> cases S <;> simp [mergeHead, interleave, List.append_assoc]

theorem markupScanF_join :
    ∀ (fuel : Nat) (s : List Char),
      interleave (markupScanF fuel s).1 (markupScanF fuel s).2 = s := by
  intro fuel
  induction fuel with
  | zero =>
    intro s
    cases s with
    | nil => rw [markupScanF_nil]; rfl
    | cons c cs => rw [markupScanF_zero_cons, interleave_cons_nil]; simp [interleave]
  | succ n ih =>
    intro s
    cases s with
    | nil => rw [markupScanF_nil]; rfl
    | cons c cs =>
      rw [markupScanF_succ_cons]
      cases h : matchMarkupAt (c :: cs) with
      | some mr =>
        obtain ⟨m, rest⟩ := mr
        obtain ⟨heq, -⟩ := matchMarkupAt_eq h
        simp only [interleave_cons_cons]
        simp [ih rest, heq]
      | none =>
        have hne := markupScanF_ne_nil n cs
        cases h1 : (markupScanF n cs).1 with
        | nil => exact absurd h1 hne
        | cons p ps =>
          simp only [h1]
          have h2 : (c :: p) :: ps = mergeHead [c] (p :: ps) := by simp [mergeHead]
          simp only [List.headD, List.tail]
          rw [h2, mergeHead_interleave]
          have h3 := ih cs
          rw [h1] at h3
          simpa using h3

theorem markupScan_join (s : List Char) :
    interleave (markupScan s).1 (markupScan s).2 = s :=
  markupScanF_join s.length s

theorem markupScanF_fuel_irrel :
    ∀ (n m : Nat) (s : List Char), s.length ≤ n → s.length ≤ m →
      markupScanF n s = markupScanF m s := by
  intro n
  induction n with
  | zero =>
    intro m s hn _
    have hs : s = [] := by cases s <;> simp_all
    subst hs
    rw [markupScanF_nil, markupScanF_nil]
  | succ n ih =>
    intro m s hn hm
    cases s with
    | nil => rw [markupScanF_nil, markupScanF_nil]
    | cons c cs =>
      cases m with
      | zero => simp at hm
      | succ m' =>
        rw [markupScanF_succ_cons, markupScanF_succ_cons]
        cases h : matchMarkupAt (c :: cs) with
        | some mr =>
          obtain ⟨mm, rest⟩ := mr
          have hlt := matchMarkupAt_length h
          have hr1 : rest.length ≤ n := by simp at hlt hn; omega
          have hr2 : rest.length ≤ m' := by simp at hlt hm; omega
          simp only [ih m' rest hr1 hr2]
        | none =>
          have hc1 : cs.length ≤ n := by simp at hn; omega
          have hc2 : cs.length ≤ m' := by simp at hm; omega
          simp only [ih m' cs hc1 hc2]

/-! ### Reconstruction of the literal decomposition -/

theorem splitQuotes_ne_nil (s : List Char) : splitQuotes s ≠ [] := by
  cases s with
  | nil => simp [splitQuotes]
  | cons c cs =>
    rw [splitQuotes]
    split
    · simp
    · cases splitQuotes cs <;> simp [consHead]

theorem consHead_join (c : Char) :
    ∀ (parts : List (List Char)), joinParts (consHead c parts) = c :: joinParts parts
  | [] => rfl
  | [_] => rfl
  | _ :: _ :: _ => by simp [consHead, joinParts]

theorem splitQuotes_join (s : List Char) : joinParts (splitQuotes s) = s := by
  induction s with
  | nil => rfl
  | cons c cs ih =>
    rw [splitQuotes]
    split
    · rename_i hc
      cases h : splitQuotes cs with
      | nil => exact absurd h (splitQuotes_ne_nil cs)
      | cons p ps =>
        rw [h] at ih
        simp [joinParts, hc, ih]
    · rw [consHead_join, ih]

theorem chunksOfParts_join :
    ∀ (parts : List (List Char)), joinChunks (chunksOfParts parts) = joinParts parts
  | [] => rfl
  | [t] => by simp [chunksOfParts, joinChunks, joinParts]
  | [t, u] => by simp [chunksOfParts, joinChunks, joinParts]
  | t :: c :: u :: rest => by
    simp only [chunksOfParts, joinChunks, joinParts]
    rw [chunksOfParts_join (u :: rest)]

theorem scanLiterals_join (s : List Char) : joinChunks (scanLiterals s) = s := by
  rw [scanLiterals, chunksOfParts_join, splitQuotes_join]

/-! ### The replacement-consuming loop -/

theorem consumeChunks_spec (repl : List (List Char)) :
    ∀ (ps : List (List Char)) (i : Nat), i + ps.length ≤ repl.length →
      consumeChunks repl i ps =
        some (((repl.drop i).take ps.length).map escapeReplacement, i + ps.length) := by
  intro ps
  induction ps with
  | nil => intro i h; simp [consumeChunks]
  | cons p ps ih =>
    intro i h
    have hi : i < repl.length := by simp at h; omega
    have hdrop : repl.drop i = repl[i] :: repl.drop (i + 1) :=
      (List.getElem_cons_drop repl i hi).symm
    rw [consumeChunks, List.getElem?_eq_getElem hi,
        ih (i + 1) (by simp at h ⊢; omega), hdrop]
    simp only [List.length_cons, List.take_succ_cons, List.map_cons,
      Option.some.injEq, Prod.mk.injEq]
    exact ⟨by trivial, by omega⟩

/-! ### Frames: the source bytes around the extracted segments -/

theorem frames_join (lo : Char → Bool) (mode : Mode) :
    ∀ (cs : List Chunk),
      interleave (framesOf lo mode cs) (extractChunks lo mode cs) = joinChunks cs := by
  intro cs
  induction cs with
  | nil => rfl
  | cons ch cs ih =>
    cases ch with
    | text t =>
      simp only [framesOf, extractChunks, joinChunks]
      rw [mergeHead_interleave, ih]
    | lit c =>
      cases hig : ignoreString lo mode c with
      | true =>
        have hf : framesOf lo mode (Chunk.lit c :: cs) =
            mergeHead (quoteChar :: (c ++ [quoteChar])) (framesOf lo mode cs) := by
          simp [framesOf, hig]
        have he : extractChunks lo mode (Chunk.lit c :: cs) = extractChunks lo mode cs := by
          simp [extractChunks, hig]
        rw [hf, he, mergeHead_interleave, ih]
        simp [joinChunks]
      | false =>
        have hf : framesOf lo mode (Chunk.lit c :: cs) =
            ([quoteChar] :: (markupScan c).2) ++
              mergeHead [quoteChar] (framesOf lo mode cs) := by
          simp [framesOf, hig]
        have he : extractChunks lo mode (Chunk.lit c :: cs) =
            (markupScan c).1 ++ extractChunks lo mode cs := by
          simp [extractChunks, hig]
        have hlen : ([quoteChar] :: (markupScan c).2).length = (markupScan c).1.length := by
          simp [markupScan_count c]
        rw [hf, he, interleave_block _ _ _ _ hlen, interleave_swap, markupScan_join c,
            mergeHead_interleave, ih]
        simp [joinChunks]

/-! ### Unfolding equations for the substitution pass -/

theorem substituteChunks_nil (lo : Char → Bool) (mode : Mode)
    (repl : List (List Char)) (i : Nat) :
    substituteChunks lo mode repl [] i = some ([], i) := rfl

theorem substituteChunks_text (lo : Char → Bool) (mode : Mode)
    (repl : List (List Char)) (t : List Char) (cs : List Chunk) (i : Nat) :
    substituteChunks lo mode repl (Chunk.text t :: cs) i =
      match substituteChunks lo mode repl cs i with
      | none => none
      | some (out, j) => some (t ++ out, j) := rfl

theorem substituteChunks_lit (lo : Char → Bool) (mode : Mode)
    (repl : List (List Char)) (c : List Char) (cs : List Chunk) (i : Nat) :
    substituteChunks lo mode repl (Chunk.lit c :: cs) i =
      (if ignoreString lo mode c then
        match substituteChunks lo mode repl cs i with
        | none => none
        | some (out, j) => some (quoteChar :: (c ++ quoteChar :: out), j)
      else
        match consumeChunks repl i (markupScan c).1 with
        | none => none
        | some (newPs, j) =>
          match substituteChunks lo mode repl cs j with
          | none => none
          | some (out, k) =>
            some (quoteChar :: (interleave newPs (markupScan c).2 ++ quoteChar :: out), k)) := rfl

/-- The substitution pass, characterized: given enough replacement entries it
never fails, consumes exactly the extraction count in order, and produces
the frame of the chunk list interleaved with the escaped replacements. -/
theorem substituteChunks_spec (lo : Char → Bool) (mode : Mode) (repl : List (List Char)) :
    ∀ (cs : List Chunk) (i : Nat),
      i + (extractChunks lo mode cs).length ≤ repl.length →
      substituteChunks lo mode repl cs i =
        some (interleave (framesOf lo mode cs)
                (((repl.drop i).take (extractChunks lo mode cs).length).map escapeReplacement),
              i + (extractChunks lo mode cs).length) := by
  intro cs
  induction cs with
  | nil =>
    intro i h
    simp [substituteChunks_nil, extractChunks, framesOf, interleave]
  | cons ch cs ih =>
    cases ch with
    | text t =>
      intro i h
      have he : extractChunks lo mode (Chunk.text t :: cs) = extractChunks lo mode cs := rfl
      have hf : framesOf lo mode (Chunk.text t :: cs) =
          mergeHead t (framesOf lo mode cs) := rfl
      rw [substituteChunks_text, ih i (by rw [he] at h; exact h)]
      dsimp only
      rw [he, hf, mergeHead_interleave]
    | lit c =>
      intro i h
      rw [substituteChunks_lit]
      cases hig : ignoreString lo mode c with
      | true =>
        have he : extractChunks lo mode (Chunk.lit c :: cs) = extractChunks lo mode cs := by
          simp [extractChunks, hig]
        have hf : framesOf lo mode (Chunk.lit c :: cs) =
            mergeHead (quoteChar :: (c ++ [quoteChar])) (framesOf lo mode cs) := by
          simp [framesOf, hig]
        rw [if_pos rfl, ih i (by rw [he] at h; exact h)]
        dsimp only
        rw [he, hf, mergeHead_interleave]
        simp [List.append_assoc]
      | false =>
        have he : extractChunks lo mode (Chunk.lit c :: cs) =
            (markupScan c).1 ++ extractChunks lo mode cs := by
          simp [extractChunks, hig]
        have hf : framesOf lo mode (Chunk.lit c :: cs) =
            ([quoteChar] :: (markupScan c).2) ++
              mergeHead [quoteChar] (framesOf lo mode cs) := by
          simp [framesOf, hig]
        have hlen : (extractChunks lo mode (Chunk.lit c :: cs)).length =
            (markupScan c).1.length + (extractChunks lo mode cs).length := by
          simp [he]
        have h1 : i + (markupScan c).1.length ≤ repl.length := by
          rw [hlen] at h; omega
        have h2 : (i + (markupScan c).1.length) + (extractChunks lo mode cs).length ≤
            repl.length := by rw [hlen] at h; omega
        rw [if_neg (by simp), consumeChunks_spec repl (markupScan c).1 i h1]
        dsimp only
        rw [ih (i + (markupScan c).1.length) h2]
        dsimp only
        rw [he, hf]
        simp only [List.length_append, Option.some.injEq, Prod.mk.injEq]
        constructor
        · have htake : (repl.drop i).take ((markupScan c).1.length +
                (extractChunks lo mode cs).length) =
              (repl.drop i).take (markupScan c).1.length ++
                (repl.drop (i + (markupScan c).1.length)).take
                  (extractChunks lo mode cs).length := by
            rw [List.take_add, List.drop_drop]
          rw [htake, List.map_append]
          have hlen2 : ([quoteChar] :: (markupScan c).2).length =
              (((repl.drop i).take (markupScan c).1.length).map escapeReplacement).length := by
            have hc := markupScan_count c
            simp only [List.length_cons, List.length_map, List.length_take, List.length_drop]
            omega
          rw [interleave_block _ _ _ _ hlen2, interleave_swap, mergeHead_interleave]
          simp [List.append_assoc]
        · omega

/-! ### Extraction as a grouped flatten -/

theorem extractChunks_eq_flatten (lo : Char → Bool) (mode : Mode) :
    ∀ (cs : List Chunk),
      extractChunks lo mode cs =
        (((literalContents cs).filter (fun c => shouldInclude lo mode c)).map
          (fun c => (markupScan c).1)).flatten := by
  intro cs
  induction cs with
  | nil => rfl
  | cons ch cs ih =>
    cases ch with
    | text t => simpa [extractChunks, literalContents] using ih
    | lit c =>
      cases hig : ignoreString lo mode c with
      | true => simp [extractChunks, literalContents, shouldInclude, hig, ih]
      | false => simp [extractChunks, literalContents, shouldInclude, hig, ih]

/-! ### The escaping transform -/

theorem escapeReplacement_clean :
    ∀ (s : List Char),
      (∀ c ∈ s, c ≠ quoteChar ∧ c ≠ '<' ∧ c ≠ '\n' ∧ c ≠ '&') →
      escapeReplacement s = s := by
  intro s
  induction s with
  | nil => intro _; rfl
  | cons c cs ih =>
    intro h
    obtain ⟨h1, h2, h3, h4⟩ := h c (List.mem_cons_self c cs)
    have hrest : escapeReplacement cs = cs :=
      ih (fun x hx => h x (List.mem_cons_of_mem c hx))
    simp only [escapeReplacement, List.map_cons, List.filter_cons]
    rw [if_neg h1]
    have hcond : (!(decide (c = '<') || decide (c = '\n') || decide (c = '&'))) = true := by
      simp [h2, h3, h4]
    rw [if_pos hcond]
    exact congrArg (c :: ·) hrest

theorem escape_commute (s : List Char) :
    escapeReplacement s =
      (s.filter (fun c => !(decide (c = '<') || decide (c = '\n') || decide (c = '&')))).map
        (fun c => if c = quoteChar then aposChar else c) := by
  induction s with
  | nil => rfl
  | cons c cs ih =>
    simp only [escapeReplacement] at ih
    simp only [escapeReplacement, List.map_cons, List.filter_cons]
    by_cases h1 : c = quoteChar
    · subst h1
      rw [if_pos rfl]
      have d1 : (!(decide (aposChar = '<') || decide (aposChar = '\n') ||
          decide (aposChar = '&'))) = true := by decide
      have d2 : (!(decide (quoteChar = '<') || decide (quoteChar = '\n') ||
          decide (quoteChar = '&'))) = true := by decide
      rw [if_pos d1, if_pos d2, List.map_cons, if_pos rfl]
      exact congrArg _ ih
    · rw [if_neg h1]
      by_cases h2 : (!(decide (c = '<') || decide (c = '\n') || decide (c = '&'))) = true
      · rw [if_pos h2, if_pos h2, List.map_cons, if_neg h1]
        exact congrArg _ ih
      · rw [if_neg h2, if_neg h2]
        exact ih

/-! ## The claims -/

/-- C1: for every source text and mode, substituting the sequence returned by
extraction (`substitute(text, mode, extract(text, mode))`) reproduces the
source text byte for byte, provided no extracted plain segment contains a
character subject to the escaping transform (double quote, `<`, newline,
`&`). -/
theorem roundtrip_identity (lo : Char → Bool) (mode : Mode) (text : List Char)
    (h : ∀ s ∈ extractStrings lo mode text, ∀ c ∈ s,
      c ≠ quoteChar ∧ c ≠ '<' ∧ c ≠ '\n' ∧ c ≠ '&') :
    substitute lo mode text (extractStrings lo mode text) = Except.ok text := by
  unfold substitute
  rw [if_neg (by simp)]
  rw [substituteChunks_spec lo mode (extractStrings lo mode text) (scanLiterals text) 0
    (by simp [extractStrings])]
  dsimp only
  rw [List.drop_zero]
  rw [show (extractChunks lo mode (scanLiterals text)).length =
      (extractStrings lo mode text).length from rfl]
  rw [List.take_length]
  have hmap : (extractStrings lo mode text).map escapeReplacement =
      extractStrings lo mode text := by
    rw [List.map_congr_left (fun a ha => escapeReplacement_clean a (h a ha))]
    simp
  rw [hmap]
  rw [show extractStrings lo mode text = extractChunks lo mode (scanLiterals text) from rfl]
  rw [frames_join, scanLiterals_join]

/-- C1 witness: the round trip at the concrete strict-mode scenario input. -/
theorem roundtrip_identity_witness :
    substitute isKanaKanji Mode.html exampleSource
      (extractStrings isKanaKanji Mode.html exampleSource) = Except.ok exampleSource :=
  roundtrip_identity isKanaKanji Mode.html exampleSource (by decide)

/-- C2: calling substitution with a replacement sequence whose length differs
from the extraction length fails with the count-mismatch error and leaves the
stored source text (and stored extraction) completely unchanged. -/
theorem mismatch_rejection (lo : Char → Bool) (mode : Mode) (text : List Char)
    (repl : List (List Char))
    (h : repl.length ≠ (extractStrings lo mode text).length) :
    ParserState.replaceStringsRun lo ⟨mode, text, extractStrings lo mode text⟩ repl =
      (some SubstError.countMismatch, ⟨mode, text, extractStrings lo mode text⟩) := by
  simp [ParserState.replaceStringsRun, h]

/-- C2 witness: an empty replacement sequence against the three-segment
extraction of the scenario input. -/
theorem mismatch_rejection_witness :
    ParserState.replaceStringsRun isKanaKanji
        ⟨Mode.html, exampleSource, extractStrings isKanaKanji Mode.html exampleSource⟩ [] =
      (some SubstError.countMismatch,
        ⟨Mode.html, exampleSource, extractStrings isKanaKanji Mode.html exampleSource⟩) :=
  mismatch_rejection isKanaKanji Mode.html exampleSource [] (by decide)

/-- C3: in heuristic mode `should_include` holds exactly when the strict
(`<html>…</html>` fullmatch) condition holds, or the content contains a
punctuation mark of the fixed set, or the content is 6+ characters all of the
Other_Letter category; a bare literal of 7 such characters is included and
extraction yields one segment equal to its whole content, while a 5-character
run is excluded and extraction yields nothing. -/
theorem heuristic_inclusion :
    (∀ (lo : Char → Bool) (s : List Char),
      shouldInclude lo Mode.heuristic s =
        (htmlTagsFullmatch s || hasSentencePunct s || otherLetterRun lo s)) ∧
    extractStrings isKanaKanji Mode.heuristic ("this.t = \"いちにさん一二\";".toList) =
      ["いちにさん一二".toList] ∧
    extractStrings isKanaKanji Mode.heuristic ("this.t = \"いちにさん\";".toList) = [] := by
  refine ⟨?_, by decide, by decide⟩
  intro lo s
  simp only [shouldInclude, ignoreString]
  cases h1 : htmlTagsFullmatch s <;> cases h2 : hasSentencePunct s <;>
    cases h3 : otherLetterRun lo s <;> simp [h1, h2, h3]

/-- C4 counterexample: the content `<html>\n</html>` is an opening `<html>`
marker, arbitrary content, and the matching closing marker — the claim says
strict mode includes it — but the code's fullmatch (whose `.` does not match
a newline) rejects it. -/
theorem strict_inclusion_counterexample :
    htmlWrappedClaim ("<html>\n</html>".toList) = true ∧
    shouldInclude isKanaKanji Mode.html ("<html>\n</html>".toList) = false := by
  constructor <;> decide

/-- C4 (amended): in strict (`html`) mode, `should_include` holds exactly when
the entire content is the opening `<html>` marker, then arbitrary
newline-free content, then the closing `</html>` marker. -/
theorem strict_inclusion_amended (lo : Char → Bool) (s : List Char) :
    shouldInclude lo Mode.html s = true ↔
      ∃ mid, (∀ c ∈ mid, c ≠ '\n') ∧ s = openHtml ++ mid ++ closeHtml := by
  have ho : openHtml.length = 6 := rfl
  have hcl : closeHtml.length = 7 := rfl
  have hsi : shouldInclude lo Mode.html s = htmlTagsFullmatch s := by
    simp only [shouldInclude, ignoreString]
    cases htmlTagsFullmatch s <;> simp
  rw [hsi]
  constructor
  · intro h
    simp only [htmlTagsFullmatch, Bool.and_eq_true, decide_eq_true_eq,
      List.all_eq_true] at h
    obtain ⟨⟨⟨hlen, htake⟩, hdrop⟩, hall⟩ := h
    refine ⟨(s.drop 6).take (s.length - 13), ?_, ?_⟩
    · intro c hc
      simpa using hall c hc
    · conv_lhs => rw [← List.take_append_drop 6 s]
      rw [htake]
      conv_lhs => rw [← List.take_append_drop (s.length - 13) (s.drop 6)]
      have hdd : (s.drop 6).drop (s.length - 13) = s.drop (s.length - 7) := by
        rw [List.drop_drop]
        congr 1
        omega
      rw [hdd, hdrop]
      simp [List.append_assoc]
  · rintro ⟨mid, hmid, rfl⟩
    have hlen : (openHtml ++ mid ++ closeHtml).length = mid.length + 13 := by
      simp only [List.length_append, ho, hcl]
      omega
    have hmid2 : ((openHtml ++ mid ++ closeHtml).drop 6).take
        ((openHtml ++ mid ++ closeHtml).length - 13) = mid := by
      rw [List.append_assoc, List.drop_left' ho]
      rw [show (openHtml ++ (mid ++ closeHtml)).length - 13 = mid.length from by
        simp only [List.length_append, ho, hcl]; omega]
      exact List.take_left' rfl
    simp only [htmlTagsFullmatch, Bool.and_eq_true, decide_eq_true_eq,
      List.all_eq_true]
    refine ⟨⟨⟨by omega, ?_⟩, ?_⟩, ?_⟩
    · rw [List.append_assoc]
      exact List.take_left' ho
    · rw [show (openHtml ++ mid ++ closeHtml).length - 7 =
          (openHtml ++ mid).length from by simp only [List.length_append, ho, hcl]; omega]
      exact List.drop_left _ _
    · intro c hc
      rw [hmid2] at hc
      simpa using hmid c hc

/-- C5 counterexample: in strict mode, extraction on
`this.t = "<html>hi</html>";` does not yield the one-element sequence
`["hi"]` (it yields three segments, two of them empty). -/
theorem strict_scenario_counterexample :
    extractStrings isKanaKanji Mode.html exampleSource ≠ ["hi".toList] := by
  decide

/-- C5 (amended): in strict mode, extraction on
`this.t = "<html>hi</html>";` yields `["", "hi", ""]`; substituting
`["", "HELLO", ""]` yields `this.t = "<html>HELLO</html>";`, and substituting
the one-element `["HELLO"]` fails with the count-mismatch error. -/
theorem strict_scenario_amended :
    extractStrings isKanaKanji Mode.html exampleSource = [[], "hi".toList, []] ∧
    substitute isKanaKanji Mode.html exampleSource [[], "HELLO".toList, []] =
      Except.ok ("this.t = \"<html>HELLO</html>\";".toList) ∧
    substitute isKanaKanji Mode.html exampleSource ["HELLO".toList] =
      Except.error SubstError.countMismatch := by
  refine ⟨by decide, rfl, rfl⟩

/-- C6 counterexample: the escaping transform applied to
`He said "hi" <b>\n` does not produce `He said 'hi' b` (the `>` is not in the
stripped character set). -/
theorem escaping_transform_counterexample :
    escapeReplacement ("He said \"hi\" <b>\n".toList) ≠ "He said 'hi' b".toList := by
  decide

/-- C6 (amended): the escaping transform converts every embedded double quote
to a single quote and strips every `<`, newline and `&` (equivalently: keep
exactly the characters outside the stripped set, then convert quotes);
applied to `He said "hi" <b>\n` it produces `He said 'hi' b>`. -/
theorem escaping_transform_amended :
    (∀ s : List Char,
      escapeReplacement s =
        (s.filter (fun c => !(decide (c = '<') || decide (c = '\n') ||
          decide (c = '&')))).map (fun c => if c = quoteChar then aposChar else c)) ∧
    escapeReplacement ("He said \"hi\" <b>\n".toList) = "He said 'hi' b>".toList := by
  exact ⟨escape_commute, by decide⟩

/-- C7: for every literal content, the markup split produces exactly one more
plain segment than there are markup runs (`count(Markup Runs) + 1`); both the
extraction pass and the substitution pass split with the same `markupScan`,
so the count is identical in the two passes. -/
theorem segment_count_invariant (content : List Char) :
    (markupScan content).1.length = (markupScan content).2.length + 1 :=
  markupScan_count content

/-- C8: when the replacement sequence has exactly the extraction length, the
substitution pass succeeds (the out-of-range branch is unreachable) and its
final index equals the sequence length: every entry is consumed exactly once,
in order. -/
theorem replacement_consumption (lo : Char → Bool) (mode : Mode) (text : List Char)
    (repl : List (List Char))
    (h : repl.length = (extractStrings lo mode text).length) :
    ∃ out, substituteChunks lo mode repl (scanLiterals text) 0 = some (out, repl.length) := by
  have hn : (extractChunks lo mode (scanLiterals text)).length = repl.length := by
    rw [h]; rfl
  refine ⟨interleave (framesOf lo mode (scanLiterals text))
    (((repl.drop 0).take (extractChunks lo mode (scanLiterals text)).length).map
      escapeReplacement), ?_⟩
  rw [substituteChunks_spec lo mode repl (scanLiterals text) 0 (by omega)]
  rw [Nat.zero_add, hn]

/-- C8 witness: the three-entry replacement sequence for the scenario input
is consumed completely, ending at index 3. -/
theorem replacement_consumption_witness :
    ∃ out, substituteChunks isKanaKanji Mode.html [[], "HELLO".toList, []]
      (scanLiterals exampleSource) 0 = some (out, 3) := by
  have h := replacement_consumption isKanaKanji Mode.html exampleSource
    [[], "HELLO".toList, []] (by decide)
  simpa using h

/-- C9: the extracted sequence is the concatenation, in scan order, of the
segment lists of the included literals (segments of an earlier literal
precede those of a later one, and keep their left-to-right split order);
interleaving the frame — all non-literal bytes, excluded literals, quotes and
markup — with the extracted segments reproduces the source text byte for
byte; and substitution with an accepted replacement sequence produces exactly
that frame interleaved with the escaped replacements, so everything outside
the plain segments passes through byte-identical. -/
theorem order_and_passthrough (lo : Char → Bool) (mode : Mode) (text : List Char)
    (repl : List (List Char)) :
    extractStrings lo mode text =
      (((literalContents (scanLiterals text)).filter (fun c => shouldInclude lo mode c)).map
        (fun c => (markupScan c).1)).flatten ∧
    interleave (framesOf lo mode (scanLiterals text)) (extractStrings lo mode text) = text ∧
    (repl.length = (extractStrings lo mode text).length →
      substitute lo mode text repl =
        Except.ok (interleave (framesOf lo mode (scanLiterals text))
          (repl.map escapeReplacement))) := by
  refine ⟨extractChunks_eq_flatten lo mode (scanLiterals text), ?_, ?_⟩
  · rw [show extractStrings lo mode text = extractChunks lo mode (scanLiterals text)
        from rfl, frames_join, scanLiterals_join]
  · intro h
    unfold substitute
    rw [if_neg (by omega)]
    rw [substituteChunks_spec lo mode repl (scanLiterals text) 0
      (by rw [show (extractStrings lo mode text).length =
          (extractChunks lo mode (scanLiterals text)).length from rfl] at h; omega)]
    dsimp only
    rw [List.drop_zero]
    rw [show (extractChunks lo mode (scanLiterals text)).length = repl.length from by
      rw [h]; rfl]
    rw [List.take_length]

/-- C9 witness: the passthrough shape of substitution at the scenario input
with a concrete accepted replacement sequence. -/
theorem order_and_passthrough_witness :
    substitute isKanaKanji Mode.html exampleSource [[], "X".toList, []] =
      Except.ok (interleave (framesOf isKanaKanji Mode.html (scanLiterals exampleSource))
        ([[], "X".toList, []].map escapeReplacement)) :=
  (order_and_passthrough isKanaKanji Mode.html exampleSource
    [[], "X".toList, []]).2.2 (by decide)

/-- C10: constructing a parser with a mode string other than `html` or
`heuristic` fails with the unsupported-mode error before the input is read
(the result does not depend on the input thunk); with a supported mode the
constructor extracts immediately, so `get_extracted_strings` returns the
sequence determined by the source text and the mode. -/
theorem mode_validation (lo : Char → Bool) (modeStr : List Char)
    (f g : Unit → List Char) :
    (modeStr ≠ "html".toList → modeStr ≠ "heuristic".toList →
      mkParserState lo modeStr f = Except.error InitError.unsupportedMode ∧
      mkParserState lo modeStr f = mkParserState lo modeStr g) ∧
    (∀ m : Mode, parseMode modeStr = some m →
      ∃ p, mkParserState lo modeStr f = Except.ok p ∧
        p.getExtractedStrings = extractStrings lo m (f ())) := by
  constructor
  · intro h1 h2
    have hp : parseMode modeStr = none := by
      unfold parseMode
      rw [if_neg h1, if_neg h2]
    constructor <;> simp [mkParserState, hp]
  · intro m hm
    refine ⟨⟨m, f (), extractStrings lo m (f ())⟩, ?_, rfl⟩
    simp [mkParserState, hm]

/-- C10 witness: the unsupported mode string `strict` fails; the supported
mode string `html` yields a parser whose stored strings are the extraction of
the input. -/
theorem mode_validation_witness :
    mkParserState isKanaKanji ("strict".toList) (fun _ => exampleSource) =
        Except.error InitError.unsupportedMode ∧
    ∃ p, mkParserState isKanaKanji ("html".toList) (fun _ => exampleSource) =
        Except.ok p ∧
      p.getExtractedStrings = extractStrings isKanaKanji Mode.html exampleSource := by
  constructor
  · exact ((mode_validation isKanaKanji ("strict".toList) (fun _ => exampleSource)
      (fun _ => exampleSource)).1 (by decide) (by decide)).1
  · exact (mode_validation isKanaKanji ("html".toList) (fun _ => exampleSource)
      (fun _ => exampleSource)).2 Mode.html rfl

end Swf
